import Mathlib

/-!
# Verification of the cellulose forward-auth gateway

A shallow embedding, in Lean 4, of the decision-making core of the
`cellulose` JWT-validating HTTP server:

* `src/context_headers.rs` — the header value mapper,
* `src/key_store.rs` — the key freshness tracker,
* `src/lib.rs` (`auth`) — the decision pipeline and the compiled-policy cache,
* `src/main.rs` — the background refresh loop.

Conventions of the embedding:

* Time is modelled in whole seconds as `Nat` (`Duration::from_secs` in the
  source works in whole seconds; `SystemTime` comparisons are modelled at
  second granularity).
* Rust `f64` arithmetic on the refresh multiplier is modelled exactly over
  `ℚ`; the saturating cast `as u64` of a float is `Int.toNat ∘ Int.floor`
  (truncation toward zero for nonnegative values, `0` for negative ones).
* `HashMap` values are modelled as association lists (`lookupA`/`insertA`);
  insertion replaces an existing binding, matching `HashMap::insert`.
* External crates (`jwt_simple_jwks`, `cel-interpreter`, `http`) are
  modelled at their documented interface boundary: token verification,
  policy compilation and policy execution are opaque capabilities
  (fields of `Env`), while `http::HeaderValue::to_str` and
  `http::HeaderMap::append` have fixed documented behaviour which is
  embedded directly (`is_visible_ascii`, `hmAppend`).
-/

namespace Cellulose

/-! ## CEL values (the fragment of `cel_interpreter::Value` the core produces
and inspects: strings, bytes, lists, maps, booleans). -/

/-- The tagged-union value type of the policy evaluator, restricted to the
variants the core constructs or inspects. -/
inductive Value where
  | str : String → Value
  | bytes : List Nat → Value
  | list : List Value → Value
  | map : List (String × Value) → Value
  | bool : Bool → Value
  | int : Int → Value
  | null : Value

/-- Is this value a `Value.str`? -/
def Value.isString : Value → Bool
  | .str _ => true
  | _ => false

/-- Is this value a `Value.list`? -/
def Value.isList : Value → Bool
  | .list _ => true
  | _ => false

/-- Is this value a `Value.bool`? -/
def Value.isBool : Value → Bool
  | .bool _ => true
  | _ => false

/-! ## Association-list model of `HashMap` -/

/-- First-match lookup in an association list (model of `HashMap::get`). -/
def lookupA {β : Type} : List (String × β) → String → Option β
  | [], _ => none
  | (k, v) :: rest, n => if k = n then some v else lookupA rest n

/-- Insert into an association list, replacing an existing binding
(model of `HashMap::insert`). -/
def insertA {β : Type} : List (String × β) → String → β → List (String × β)
  | [], n, v => [(n, v)]
  | (k, w) :: rest, n, v =>
      if k = n then (n, v) :: rest else (k, w) :: insertA rest n v

/-! ## Header value mapper (`src/context_headers.rs`) -/

/-- A raw header value: its byte sequence (each entry a byte `< 256`),
as held by `http::HeaderValue`. -/
abbrev HeaderBytes := List Nat

/-- `http::HeaderValue::to_str` succeeds exactly on bytes that are visible
ASCII (`0x20`–`0x7E`) or horizontal tab. Embedded from the `http` crate's
`is_visible_ascii`. -/
def is_visible_ascii (b : Nat) : Bool :=
  (32 ≤ b && b < 127) || b == 9

/-- Decode a visible-ASCII byte sequence to a `String` (the identity
embedding of ASCII into UTF-8, as done by `HeaderValue::to_str`). -/
def asciiToString (hv : HeaderBytes) : String :=
  String.mk (hv.map Char.ofNat)

/-- The inner `to_cel_value` of `header_values_to_value`
(`src/context_headers.rs:9-14`): `hv.to_str()` yields a string value when
it succeeds (all bytes visible ASCII or tab) and a bytes value otherwise. -/
def to_cel_value (hv : HeaderBytes) : Value :=
  if hv.all is_visible_ascii then Value.str (asciiToString hv)
  else Value.bytes hv

/-- `header_values_to_value` (`src/context_headers.rs:8-22`): map each raw
value through `to_cel_value`; a single-element vector collapses to its
element, anything else becomes a list. -/
def header_values_to_value (hvs : List HeaderBytes) : Value :=
  match hvs.map to_cel_value with
  | [v] => v
  | vs => Value.list vs

/-- Strict UTF-8 validation (RFC 3629 table: rejects overlong encodings,
surrogates, and code points above `U+10FFFF`), as a byte-at-a-time
automaton. The state is the list of (lo, hi) ranges the next continuation
bytes must fall in; an empty state expects a new scalar value. Used only
to state spec claims phrased in terms of UTF-8 validity. -/
def utf8_run : List (Nat × Nat) → List Nat → Bool
  | [], [] => true
  | [], b :: rest =>
      if b ≤ 0x7F then utf8_run [] rest
      else if 0xC2 ≤ b && b ≤ 0xDF then utf8_run [(0x80, 0xBF)] rest
      else if b == 0xE0 then utf8_run [(0xA0, 0xBF), (0x80, 0xBF)] rest
      else if (0xE1 ≤ b && b ≤ 0xEC) || b == 0xEE || b == 0xEF then
        utf8_run [(0x80, 0xBF), (0x80, 0xBF)] rest
      else if b == 0xED then utf8_run [(0x80, 0x9F), (0x80, 0xBF)] rest
      else if b == 0xF0 then
        utf8_run [(0x90, 0xBF), (0x80, 0xBF), (0x80, 0xBF)] rest
      else if 0xF1 ≤ b && b ≤ 0xF3 then
        utf8_run [(0x80, 0xBF), (0x80, 0xBF), (0x80, 0xBF)] rest
      else if b == 0xF4 then
        utf8_run [(0x80, 0x8F), (0x80, 0xBF), (0x80, 0xBF)] rest
      else false
  | _ :: _, [] => false
  | (lo, hi) :: exp, b :: rest => (lo ≤ b && b ≤ hi) && utf8_run exp rest

/-- A byte sequence is valid UTF-8 when the automaton accepts it from the
initial state. -/
def utf8_valid (l : List Nat) : Bool := utf8_run [] l

/-! ### The `http::HeaderMap` input

`parse_headers` consumes an `http::HeaderMap`. A `HeaderMap` is a multimap:
`append` pushes a value under an existing name (wherever in the insertion
sequence that name first appeared) or starts a new entry, and iteration
yields, per entry, the name with its first value followed by `(None, v)`
pairs for the extra values. We model the map as the ordered list of its
entries, construction by `append` from the raw wire sequence, and
iteration as the flattening just described. -/

/-- One entry per distinct header name, values in arrival order. -/
abbrev HeaderEntries := List (String × List HeaderBytes)

/-- `http::HeaderMap::append`: push the value onto the existing entry for
this name, or add a fresh entry at the end. -/
def hmAppend : HeaderEntries → String → HeaderBytes → HeaderEntries
  | [], n, v => [(n, [v])]
  | (k, vs) :: rest, n, v =>
      if k = n then (k, vs ++ [v]) :: rest
      else (k, vs) :: hmAppend rest n v

/-- Build a `HeaderMap` from the ordered raw sequence of
(canonical name, raw bytes) pairs, by repeated `append` — this is how the
HTTP layer materialises possibly-repeated, possibly-scattered header
fields before `parse_headers` sees them. -/
def buildHeaderMap (seq : List (String × HeaderBytes)) : HeaderEntries :=
  seq.foldl (fun m p => hmAppend m p.1 p.2) []

/-- `HeaderMap::into_iter`: per entry, the name paired with the first
value, then `(none, v)` for each further value of the same name. -/
def hmIter (m : HeaderEntries) : List (Option String × HeaderBytes) :=
  m.flatMap fun e =>
    match e.2 with
    | [] => []
    | v :: vs => (some e.1, v) :: vs.map (fun w => (none, w))

/-- The accumulator state of the fold in `parse_headers`: the pending
(name, values) group plus the output map built so far. -/
abbrev ParseState := Option (String × List HeaderBytes) × List (String × Value)

/-- One step of the fold in `parse_headers` (`src/context_headers.rs:27-48`):
a `some` name pops the pending group into the output and starts a new one;
a `none` name extends the pending group. (The source `expect`s the
accumulator to be `some` in the latter case; `HeaderMap` iteration
guarantees it, and the model leaves the state unchanged on that
unreachable branch.) -/
def parseStep (st : ParseState) (p : Option String × HeaderBytes) : ParseState :=
  match p.1 with
  | some hn =>
      match st.1 with
      | some (phn, phvs) =>
          (some (hn, [p.2]), insertA st.2 phn (header_values_to_value phvs))
      | none => (some (hn, [p.2]), st.2)
  | none =>
      match st.1 with
      | some (phn, phvs) => (some (phn, phvs ++ [p.2]), st.2)
      | none => (none, st.2)

/-- `parse_headers` (`src/context_headers.rs:24-54`): fold the map's
iteration sequence grouping runs of the same name, flush the trailing
group, and return the output mapping (the source wraps it in
`Value::Map`; the association list is that map's contents). -/
def parse_headers (m : HeaderEntries) : List (String × Value) :=
  let st := (hmIter m).foldl parseStep (none, [])
  match st.1 with
  | some (hn, hvs) => insertA st.2 hn (header_values_to_value hvs)
  | none => st.2

/-- All values carried by a given name in a raw header sequence, in
arrival order (regardless of contiguity). -/
def valuesOf (seq : List (String × HeaderBytes)) (n : String) : List HeaderBytes :=
  (seq.filter fun p => p.1 == n).map Prod.snd

/-! ## Key freshness tracker (`src/key_store.rs`) -/

/-- Fallback maximum JWKS validity, in seconds (`src/key_store.rs:12`). -/
def MAX_JWKS_VALIDITY : Nat := 5 * 60

/-- The state of the wrapped `jwt_simple_jwks::KeyStore`, as consumed
through its metadata accessors (an external collaborator, specified at
the interface boundary): the last successful load time, the
`refresh_interval` multiplier (an `f64`, modelled as `ℚ`), the explicit
`keys_expired` signal, and the directive-derived freshness (seconds of
validity advertised by the fetch, when present). -/
structure InnerKeyStore where
  last_load_time : Option Nat
  refresh_interval : ℚ
  keys_expired : Option Bool
  freshness : Option Nat

/-- Modelled from the spec: the external crate's `should_refresh_time`
accessor — the directive-derived staleness signal, present exactly when a
freshness directive accompanied the last fetch, and then true exactly when
`now` exceeds `last_load_time + freshness`. -/
def should_refresh_time (ks : InnerKeyStore) (now : Nat) : Option Bool :=
  match ks.last_load_time, ks.freshness with
  | some t, some f => some (decide (t + f < now))
  | _, _ => none

/-- `KeyStore::should_refresh` (`src/key_store.rs:24-41`): true before any
load; otherwise the directive-derived signal when present, else the
fallback `now > last_load_time + (MAX_JWKS_VALIDITY s * refresh_interval)`
with the product truncated to whole seconds by the `as u64` cast. -/
def should_refresh (ks : InnerKeyStore) (now : Nat) : Bool :=
  match ks.last_load_time with
  | some t =>
      (should_refresh_time ks now).getD
        (decide (t + Int.toNat (Int.floor ((MAX_JWKS_VALIDITY : ℚ) * ks.refresh_interval)) < now))
  | none => true

/-- `KeyStore::still_valid` (`src/key_store.rs:50-63`): false before any
load; otherwise the negation of the explicit `keys_expired` signal,
defaulting to `now > last_load_time + MAX_JWKS_VALIDITY` — the fallback
ceiling does not involve `refresh_interval`. -/
def still_valid (ks : InnerKeyStore) (now : Nat) : Bool :=
  match ks.last_load_time with
  | some t => !(ks.keys_expired.getD (decide (t + MAX_JWKS_VALIDITY < now)))
  | none => false

/-! ## Decision pipeline (`src/lib.rs`, `auth`) -/

/-- The verification options passed to `KeyStore::verify`
(`jwt_simple::prelude::VerificationOptions`, allow-lists only). -/
structure VerificationOptions where
  allowed_issuers : Option (List String)
  allowed_audiences : Option (List String)

/-- The external capabilities the pipeline composes: token verification by
the key provider (returning the claim set as a `Value.map`-shaped value on
success, an error message on failure), and the policy evaluator's
`compile` and `execute`. `Program` is the opaque compiled-program type. -/
structure Env (Program : Type) where
  verify : String → VerificationOptions → Except String Value
  compile : String → Except String Program
  execute : Program → List (String × Value) → Except String Value

/-- The parts of an inbound request the pipeline reads: the optional
bearer token, the `cel_str` / `allowed_audiences` / `allowed_issuers`
query parameters, and the raw header sequence. -/
structure Request where
  bearer : Option String
  cel_str : Option String
  allowed_audiences : Option (List String)
  allowed_issuers : Option (List String)
  headers : List (String × HeaderBytes)

/-- The request context (`src/lib.rs:101-118`): `request_headers` from the
header value mapper and `jwt_claims` from the verified token. -/
def buildContext (rq : Request) (jwt_claims : Value) : List (String × Value) :=
  [("request_headers", Value.map (parse_headers (buildHeaderMap rq.headers))),
   ("jwt_claims", jwt_claims)]

/-- The handler's return type `Result<impl IntoResponse, StatusCode>`:
`ok body` renders as HTTP 200 with that body, `error c` as status `c`. -/
abbrev HandlerResult := Except Nat String

/-- HTTP status of a handler result. -/
def statusOf : HandlerResult → Nat
  | .ok _ => 200
  | .error c => c

/-- Response body of a handler result (`none` for error statuses). -/
def bodyOf : HandlerResult → Option String
  | .ok s => some s
  | .error _ => none

/-- The `auth` handler (`src/lib.rs:54-154`), as a function of the external
capabilities, the key-store state, the current time, the policy cache,
and the request. Returns the handler result together with the policy
cache after the request (its only state change). Mirrors the source:
missing bearer → 401; `still_valid()` false → 500; verification failure →
401; missing `cel_str` → 401; on cache miss compile (failure → 500,
cache untouched), execute, then insert the compiled program; execution
failure → 500; then `Bool(true)` → "Access granted", `Bool(false)` → 401,
any other value → 500. -/
def auth {Program : Type} (env : Env Program) (ks : InnerKeyStore) (now : Nat)
    (cache : List (String × Program)) (rq : Request) :
    HandlerResult × List (String × Program) :=
  match rq.bearer with
  | none => (.error 401, cache)
  | some token =>
    if !still_valid ks now then (.error 500, cache)
    else
      match env.verify token ⟨rq.allowed_issuers, rq.allowed_audiences⟩ with
      | .error _ => (.error 401, cache)
      | .ok jwt_claims =>
        match rq.cel_str with
        | none => (.error 401, cache)
        | some cel_str =>
          let context := buildContext rq jwt_claims
          match lookupA cache cel_str with
          | some program =>
            match env.execute program context with
            | .error _ => (.error 500, cache)
            | .ok v =>
              match v with
              | .bool true => (.ok "Access granted", cache)
              | .bool false => (.error 401, cache)
              | _ => (.error 500, cache)
          | none =>
            match env.compile cel_str with
            | .error _ => (.error 500, cache)
            | .ok program =>
              let result := env.execute program context
              let cache' := insertA cache cel_str program
              match result with
              | .error _ => (.error 500, cache')
              | .ok v =>
                match v with
                | .bool true => (.ok "Access granted", cache')
                | .bool false => (.error 401, cache')
                | _ => (.error 500, cache')

/-- The compiled program the pipeline ends up executing for a source
string: the cached one on a hit, the freshly compiled one on a miss
(`none` when the miss fails to compile). -/
def obtainedProgram {Program : Type} (env : Env Program)
    (cache : List (String × Program)) (s : String) : Option Program :=
  match lookupA cache s with
  | some p => some p
  | none =>
    match env.compile s with
    | .ok p => some p
    | .error _ => none

/-! ## Background refresh task (`src/main.rs:65-86`)

The loop body awaits `interval.tick()` and `key_store.should_refresh()`;
when a refresh is due it constructs the `tokio_retry::Retry` future with
the jittered exponential strategy. In Rust a future performs work only
when polled (`.await`ed or spawned onto an executor); we model a future
as the list of key-store effects it would perform if polled, and a loop
iteration as the list of effects its awaited expressions actually
perform. -/

/-- Observable effects of the background task on the shared key store. -/
inductive BgEffect where
  | tick
  | refreshAttempt
deriving DecidableEq

/-- The `Retry::spawn(retry_strategy, action)` future
(`src/main.rs:75-82`): if polled to completion it performs the initial
refresh attempt plus up to `take(3)` retries. -/
def retry_refresh_future : List BgEffect :=
  List.replicate 4 BgEffect.refreshAttempt

/-- Effects actually performed by one iteration of the background loop
(`src/main.rs:72-84`): the tick is awaited; `should_refresh()` is awaited;
and when it is true the source evaluates `Retry::spawn(retry_strategy,
action)` as a statement, dropping the returned future without awaiting
it, so none of that future's effects occur. -/
def background_tick_effects (shouldRefresh : Bool) : List BgEffect :=
  BgEffect.tick ::
    (if shouldRefresh then
      let _unawaited := retry_refresh_future
      ([] : List BgEffect)
    else [])

/-! ## Key freshness theorems -/

/-- C2: `still_valid()` is false whenever no key set has ever been loaded;
with keys loaded and no explicit expiry signal it is true exactly when
`now ≤ last_load_time + MAX_JWKS_VALIDITY`; and in particular — for every
`refresh_interval` value, since `ks` is arbitrary here — it is false as
soon as `now` passes `last_load_time + MAX_JWKS_VALIDITY`. -/
theorem still_valid_hard_ceiling (ks : InnerKeyStore) (now : Nat) :
    (ks.last_load_time = none → still_valid ks now = false)
  ∧ (∀ t, ks.last_load_time = some t → ks.keys_expired = none →
      (still_valid ks now = true ↔ now ≤ t + MAX_JWKS_VALIDITY))
  ∧ (∀ t, ks.last_load_time = some t → ks.keys_expired = none →
      t + MAX_JWKS_VALIDITY < now → still_valid ks now = false) := by
  refine ⟨fun h => by simp [still_valid, h], fun t ht he => ?_, fun t ht he hlt => ?_⟩
  · simp [still_valid, ht, he]
  · simpa [still_valid, ht, he] using hlt

/-- Witness for `still_valid_hard_ceiling`: a never-loaded store, a store
loaded at `t = 100` queried at `now = 100`, and the same store queried at
`now = 1000 > 100 + 300`. -/
theorem still_valid_hard_ceiling_witness :
    still_valid ⟨none, 1, none, none⟩ 0 = false
  ∧ (still_valid ⟨some 100, 2, none, none⟩ 100 = true ↔ 100 ≤ 100 + MAX_JWKS_VALIDITY)
  ∧ still_valid ⟨some 100, 2, none, none⟩ 1000 = false :=
  ⟨(still_valid_hard_ceiling ⟨none, 1, none, none⟩ 0).1 rfl,
   (still_valid_hard_ceiling ⟨some 100, 2, none, none⟩ 100).2.1 100 rfl rfl,
   (still_valid_hard_ceiling ⟨some 100, 2, none, none⟩ 1000).2.2 100 rfl rfl (by decide)⟩

/-- C3: `should_refresh()` is true whenever no key set has ever been
loaded; with a directive-derived freshness signal it is true exactly when
`now` exceeds `last_load_time + freshness`; without one it is true exactly
when `now` exceeds `last_load_time + MAX_JWKS_VALIDITY * refresh_interval`
(the fallback window scaled by the multiplier; the source's truncating
`as u64` cast is invisible at whole-second granularity, which the third
conjunct proves by stating the bound with the exact rational product). -/
theorem should_refresh_scaled_window (ks : InnerKeyStore) (now : Nat) :
    (ks.last_load_time = none → should_refresh ks now = true)
  ∧ (∀ t f, ks.last_load_time = some t → ks.freshness = some f →
      (should_refresh ks now = true ↔ t + f < now))
  ∧ (∀ t, ks.last_load_time = some t → ks.freshness = none →
      0 ≤ ks.refresh_interval →
      (should_refresh ks now = true ↔
        (t : ℚ) + (MAX_JWKS_VALIDITY : ℚ) * ks.refresh_interval < (now : ℚ))) := by
  refine ⟨fun h => by simp [should_refresh, h], fun t f ht hf => ?_, fun t ht hf hr => ?_⟩
  · simp [should_refresh, should_refresh_time, ht, hf]
  · have hq : (0 : ℚ) ≤ (MAX_JWKS_VALIDITY : ℚ) * ks.refresh_interval :=
      mul_nonneg (Nat.cast_nonneg _) hr
    have hfl : (0 : ℤ) ≤ Int.floor ((MAX_JWKS_VALIDITY : ℚ) * ks.refresh_interval) :=
      Int.floor_nonneg.mpr hq
    have step1 :
        t + (Int.floor ((MAX_JWKS_VALIDITY : ℚ) * ks.refresh_interval)).toNat < now ↔
          Int.floor ((MAX_JWKS_VALIDITY : ℚ) * ks.refresh_interval) <
            (now : ℤ) - (t : ℤ) := by
      omega
    have step2 :
        Int.floor ((MAX_JWKS_VALIDITY : ℚ) * ks.refresh_interval) <
            (now : ℤ) - (t : ℤ) ↔
          (t : ℚ) + (MAX_JWKS_VALIDITY : ℚ) * ks.refresh_interval < (now : ℚ) := by
      rw [Int.floor_lt]
      push_cast
      constructor
      · intro h; linarith
      · intro h; linarith
    simp only [should_refresh, should_refresh_time, ht, hf, Option.getD,
      decide_eq_true_eq]
    rw [step1, step2]

/-- Witness for `should_refresh_scaled_window`: a never-loaded store; a
store loaded at `t = 100` with a 60-second freshness directive queried at
`now = 200`; a directive-less store loaded at `t = 100` with multiplier 2
queried at `now = 800 > 100 + 300 * 2`. -/
theorem should_refresh_scaled_window_witness :
    should_refresh ⟨none, 1, none, none⟩ 0 = true
  ∧ (should_refresh ⟨some 100, 1, none, some 60⟩ 200 = true ↔ 100 + 60 < 200)
  ∧ (should_refresh ⟨some 100, 2, none, none⟩ 800 = true ↔
      ((100 : Nat) : ℚ) + (MAX_JWKS_VALIDITY : ℚ) * (2 : ℚ) < ((800 : Nat) : ℚ)) :=
  ⟨(should_refresh_scaled_window ⟨none, 1, none, none⟩ 0).1 rfl,
   (should_refresh_scaled_window ⟨some 100, 1, none, some 60⟩ 200).2.1 100 60 rfl rfl,
   (should_refresh_scaled_window ⟨some 100, 2, none, none⟩ 800).2.2 100 rfl rfl
     (by norm_num)⟩

/-! ## Background refresh task theorem -/

/-- C9 (the code contradicts the claim): when the background loop ticks
with `should_refresh()` true, the iteration performs no refresh attempt at
all — the `Retry` future, which would perform up to four attempts, is
constructed and dropped without being awaited. -/
theorem background_tick_never_refreshes :
    background_tick_effects true = [BgEffect.tick]
  ∧ BgEffect.refreshAttempt ∉ background_tick_effects true
  ∧ retry_refresh_future ≠ [] := by
  refine ⟨rfl, by decide, by decide⟩

/-! ## Decision pipeline theorems -/

/-- Inserting a binding makes it the one found by lookup. -/
theorem lookupA_insertA_self {β : Type} (l : List (String × β)) (s : String) (v : β) :
    lookupA (insertA l s v) s = some v := by
  induction l with
  | nil => simp [insertA, lookupA]
  | cons hd tl ih =>
    obtain ⟨k, w⟩ := hd
    by_cases h : k = s
    · simp [insertA, h, lookupA]
    · simp [insertA, h, lookupA, ih]

/-- C1: the pipeline checks run in the spec's order with the stated status
mapping. Absent bearer token → 401 (for every key-store state, so before
any key-state check); bearer present and `still_valid()` false → 500 (for
every verification capability, so before verification); verified token
with no `cel_str` → 401; and — for the program the request obtains,
whether from the cache or freshly compiled — a `Bool(true)` result → 200
with body exactly "Access granted", `Bool(false)` → 401, any non-boolean
result → 500. -/
theorem auth_pipeline_order_and_statuses {Program : Type} (env : Env Program)
    (ks : InnerKeyStore) (now : Nat) (cache : List (String × Program)) (rq : Request) :
    (rq.bearer = none → (auth env ks now cache rq).1 = .error 401)
  ∧ (∀ tok, rq.bearer = some tok → still_valid ks now = false →
      (auth env ks now cache rq).1 = .error 500)
  ∧ (∀ tok claims, rq.bearer = some tok → still_valid ks now = true →
      env.verify tok ⟨rq.allowed_issuers, rq.allowed_audiences⟩ = .ok claims →
      rq.cel_str = none → (auth env ks now cache rq).1 = .error 401)
  ∧ (∀ tok claims s p, rq.bearer = some tok → still_valid ks now = true →
      env.verify tok ⟨rq.allowed_issuers, rq.allowed_audiences⟩ = .ok claims →
      rq.cel_str = some s → obtainedProgram env cache s = some p →
      env.execute p (buildContext rq claims) = .ok (.bool true) →
      statusOf (auth env ks now cache rq).1 = 200 ∧
        bodyOf (auth env ks now cache rq).1 = some "Access granted")
  ∧ (∀ tok claims s p, rq.bearer = some tok → still_valid ks now = true →
      env.verify tok ⟨rq.allowed_issuers, rq.allowed_audiences⟩ = .ok claims →
      rq.cel_str = some s → obtainedProgram env cache s = some p →
      env.execute p (buildContext rq claims) = .ok (.bool false) →
      statusOf (auth env ks now cache rq).1 = 401)
  ∧ (∀ tok claims s p v, rq.bearer = some tok → still_valid ks now = true →
      env.verify tok ⟨rq.allowed_issuers, rq.allowed_audiences⟩ = .ok claims →
      rq.cel_str = some s → obtainedProgram env cache s = some p →
      env.execute p (buildContext rq claims) = .ok v → v.isBool = false →
      statusOf (auth env ks now cache rq).1 = 500) := by
  refine ⟨fun h => by simp [auth, h],
          fun tok hb hv => by simp [auth, hb, hv],
          fun tok claims hb hv hver hc => by simp [auth, hb, hv, hver, hc],
          fun tok claims s p hb hv hver hc hp hex => ?_,
          fun tok claims s p hb hv hver hc hp hex => ?_,
          fun tok claims s p v hb hv hver hc hp hex hnb => ?_⟩
  · rcases hcl : lookupA cache s with _ | p0
    · rcases hcomp : env.compile s with err | p1
      · simp [obtainedProgram, hcl, hcomp] at hp
      · have : p1 = p := by simpa [obtainedProgram, hcl, hcomp] using hp
        subst this
        simp [auth, hb, hv, hver, hc, hcl, hcomp, hex, statusOf, bodyOf]
    · have : p0 = p := by simpa [obtainedProgram, hcl] using hp
      subst this
      simp [auth, hb, hv, hver, hc, hcl, hex, statusOf, bodyOf]
  · rcases hcl : lookupA cache s with _ | p0
    · rcases hcomp : env.compile s with err | p1
      · simp [obtainedProgram, hcl, hcomp] at hp
      · have : p1 = p := by simpa [obtainedProgram, hcl, hcomp] using hp
        subst this
        simp [auth, hb, hv, hver, hc, hcl, hcomp, hex, statusOf]
    · have : p0 = p := by simpa [obtainedProgram, hcl] using hp
      subst this
      simp [auth, hb, hv, hver, hc, hcl, hex, statusOf]
  · rcases hcl : lookupA cache s with _ | p0
    · rcases hcomp : env.compile s with err | p1
      · simp [obtainedProgram, hcl, hcomp] at hp
      · have : p1 = p := by simpa [obtainedProgram, hcl, hcomp] using hp
        subst this
        cases v with
        | bool b => simp [Value.isBool] at hnb
        | str s' => simp [auth, hb, hv, hver, hc, hcl, hcomp, hex, statusOf]
        | bytes b => simp [auth, hb, hv, hver, hc, hcl, hcomp, hex, statusOf]
        | list l => simp [auth, hb, hv, hver, hc, hcl, hcomp, hex, statusOf]
        | map m => simp [auth, hb, hv, hver, hc, hcl, hcomp, hex, statusOf]
        | int i => simp [auth, hb, hv, hver, hc, hcl, hcomp, hex, statusOf]
        | null => simp [auth, hb, hv, hver, hc, hcl, hcomp, hex, statusOf]
    · have : p0 = p := by simpa [obtainedProgram, hcl] using hp
      subst this
      cases v with
      | bool b => simp [Value.isBool] at hnb
      | str s' => simp [auth, hb, hv, hver, hc, hcl, hex, statusOf]
      | bytes b => simp [auth, hb, hv, hver, hc, hcl, hex, statusOf]
      | list l => simp [auth, hb, hv, hver, hc, hcl, hex, statusOf]
      | map m => simp [auth, hb, hv, hver, hc, hcl, hex, statusOf]
      | int i => simp [auth, hb, hv, hver, hc, hcl, hex, statusOf]
      | null => simp [auth, hb, hv, hver, hc, hcl, hex, statusOf]

/-! ### Concrete fixtures for evaluating the pipeline -/

/-- A loaded key store whose fetch metadata says the keys are not expired. -/
def sampleKs : InnerKeyStore := ⟨some 100, 1, some false, none⟩

/-- A key store that has never been loaded. -/
def sampleKsUnloaded : InnerKeyStore := ⟨none, 1, none, none⟩

/-- A request with a bearer token and a policy source. -/
def sampleRq : Request := ⟨some "tok", some "true", none, none, []⟩

/-- `sampleRq` without the bearer token. -/
def sampleRqNoBearer : Request := ⟨none, some "true", none, none, []⟩

/-- `sampleRq` without the `cel_str` parameter. -/
def sampleRqNoCel : Request := ⟨some "tok", none, none, none, []⟩

/-- Capabilities that verify every token and evaluate every policy to a
fixed value. -/
def envConst (v : Value) : Env Unit :=
  ⟨fun _ _ => .ok (Value.map []), fun _ => .ok (), fun _ _ => .ok v⟩

/-- Capabilities whose token verification always fails. -/
def envVerifyFail : Env Unit :=
  ⟨fun _ _ => .error "invalid token", fun _ => .ok (), fun _ _ => .ok (.bool true)⟩

/-- Capabilities whose policy compilation always fails. -/
def envCompileFail : Env Unit :=
  ⟨fun _ _ => .ok (Value.map []), fun _ => .error "bad policy", fun _ _ => .ok (.bool true)⟩

/-- Capabilities whose policy execution always fails. -/
def envExecFail : Env Unit :=
  ⟨fun _ _ => .ok (Value.map []), fun _ => .ok (), fun _ _ => .error "exec failed"⟩

/-- Witness for `auth_pipeline_order_and_statuses`: each clause evaluated
on concrete requests, key-store states and capabilities. -/
theorem auth_pipeline_order_and_statuses_witness :
    (auth (envConst (.bool true)) sampleKs 0 [] sampleRqNoBearer).1 = .error 401
  ∧ (auth (envConst (.bool true)) sampleKsUnloaded 0 [] sampleRq).1 = .error 500
  ∧ (auth (envConst (.bool true)) sampleKs 0 [] sampleRqNoCel).1 = .error 401
  ∧ (statusOf (auth (envConst (.bool true)) sampleKs 0 [] sampleRq).1 = 200 ∧
      bodyOf (auth (envConst (.bool true)) sampleKs 0 [] sampleRq).1 =
        some "Access granted")
  ∧ statusOf (auth (envConst (.bool false)) sampleKs 0 [] sampleRq).1 = 401
  ∧ statusOf (auth (envConst (.int 1)) sampleKs 0 [] sampleRq).1 = 500 :=
  ⟨(auth_pipeline_order_and_statuses (envConst (.bool true)) sampleKs 0 []
      sampleRqNoBearer).1 rfl,
   (auth_pipeline_order_and_statuses (envConst (.bool true)) sampleKsUnloaded 0 []
      sampleRq).2.1 "tok" rfl rfl,
   (auth_pipeline_order_and_statuses (envConst (.bool true)) sampleKs 0 []
      sampleRqNoCel).2.2.1 "tok" (Value.map []) rfl rfl rfl rfl,
   (auth_pipeline_order_and_statuses (envConst (.bool true)) sampleKs 0 []
      sampleRq).2.2.2.1 "tok" (Value.map []) "true" () rfl rfl rfl rfl rfl rfl,
   (auth_pipeline_order_and_statuses (envConst (.bool false)) sampleKs 0 []
      sampleRq).2.2.2.2.1 "tok" (Value.map []) "true" () rfl rfl rfl rfl rfl rfl,
   (auth_pipeline_order_and_statuses (envConst (.int 1)) sampleKs 0 []
      sampleRq).2.2.2.2.2 "tok" (Value.map []) "true" () (.int 1)
      rfl rfl rfl rfl rfl rfl rfl⟩

/-- C8: every token-verification failure, whatever its error value,
produces the identical externally visible outcome — status 401 with the
cache untouched. The error `err` is universally quantified and absent
from the conclusion, so no two failure causes are distinguishable. -/
theorem verify_failure_uniform_response {Program : Type} (env : Env Program)
    (ks : InnerKeyStore) (now : Nat) (cache : List (String × Program)) (rq : Request)
    (tok err : String) :
    rq.bearer = some tok → still_valid ks now = true →
    env.verify tok ⟨rq.allowed_issuers, rq.allowed_audiences⟩ = .error err →
    auth env ks now cache rq = (.error 401, cache) := by
  intro hb hv hver
  simp [auth, hb, hv, hver]

/-- Witness for `verify_failure_uniform_response`. -/
theorem verify_failure_uniform_response_witness :
    auth envVerifyFail sampleKs 0 [] sampleRq = (.error 401, []) :=
  verify_failure_uniform_response envVerifyFail sampleKs 0 [] sampleRq
    "tok" "invalid token" rfl rfl rfl

/-- C7: when compiling the policy source fails, the handler returns 500
and the cache is left unchanged, so a later request with the same source
misses the cache, recompiles, and fails again with 500. -/
theorem compile_failure_not_cached {Program : Type} (env : Env Program)
    (ks : InnerKeyStore) (now : Nat) (cache : List (String × Program)) (rq : Request)
    (tok s err : String) (claims : Value) :
    rq.bearer = some tok → still_valid ks now = true →
    env.verify tok ⟨rq.allowed_issuers, rq.allowed_audiences⟩ = .ok claims →
    rq.cel_str = some s → lookupA cache s = none → env.compile s = .error err →
    auth env ks now cache rq = (.error 500, cache)
  ∧ auth env ks now (auth env ks now cache rq).2 rq = (.error 500, cache) := by
  intro hb hv hver hc hcl hcomp
  have h1 : auth env ks now cache rq = (.error 500, cache) := by
    simp [auth, hb, hv, hver, hc, hcl, hcomp]
  exact ⟨h1, by rw [h1]; exact h1⟩

/-- Witness for `compile_failure_not_cached`. -/
theorem compile_failure_not_cached_witness :
    auth envCompileFail sampleKs 0 [] sampleRq = (.error 500, [])
  ∧ auth envCompileFail sampleKs 0
      (auth envCompileFail sampleKs 0 [] sampleRq).2 sampleRq = (.error 500, []) :=
  compile_failure_not_cached envCompileFail sampleKs 0 [] sampleRq
    "tok" "true" "bad policy" (Value.map []) rfl rfl rfl rfl rfl rfl

/-- C10: on a cache miss, a program that compiles successfully is inserted
into the cache even when executing it fails — the handler returns 500 with
the program already cached, and a later request with the same source
string finds it by lookup (no recompilation). -/
theorem exec_failure_still_caches {Program : Type} (env : Env Program)
    (ks : InnerKeyStore) (now : Nat) (cache : List (String × Program)) (rq : Request)
    (tok s err : String) (claims : Value) (p : Program) :
    rq.bearer = some tok → still_valid ks now = true →
    env.verify tok ⟨rq.allowed_issuers, rq.allowed_audiences⟩ = .ok claims →
    rq.cel_str = some s → lookupA cache s = none → env.compile s = .ok p →
    env.execute p (buildContext rq claims) = .error err →
    auth env ks now cache rq = (.error 500, insertA cache s p)
  ∧ lookupA (auth env ks now cache rq).2 s = some p := by
  intro hb hv hver hc hcl hcomp hex
  have h1 : auth env ks now cache rq = (.error 500, insertA cache s p) := by
    simp [auth, hb, hv, hver, hc, hcl, hcomp, hex]
  exact ⟨h1, by rw [h1]; exact lookupA_insertA_self cache s p⟩

/-- Witness for `exec_failure_still_caches`. -/
theorem exec_failure_still_caches_witness :
    auth envExecFail sampleKs 0 [] sampleRq = (.error 500, insertA [] "true" ())
  ∧ lookupA (auth envExecFail sampleKs 0 [] sampleRq).2 "true" = some () :=
  exec_failure_still_caches envExecFail sampleKs 0 [] sampleRq
    "tok" "true" "exec failed" (Value.map []) () rfl rfl rfl rfl rfl rfl rfl

/-! ## Header value mapper theorems -/

/-- Bytes that are all visible ASCII (or tab) form a valid UTF-8 sequence. -/
theorem utf8_valid_of_all_visible_ascii (l : HeaderBytes)
    (h : l.all is_visible_ascii = true) : utf8_valid l = true := by
  induction l with
  | nil => rfl
  | cons b rest ih =>
    rw [List.all_cons, Bool.and_eq_true] at h
    obtain ⟨hb, hrest⟩ := h
    have hble : b ≤ 0x7F := by
      simp [is_visible_ascii] at hb
      omega
    rw [utf8_valid, utf8_run, if_pos hble]
    exact ih hrest

/-- C4, counterexample: the byte sequence `0xC3 0xA9` (the two-byte UTF-8
encoding of `é`, a legal `http::HeaderValue`) is valid UTF-8, yet the
mapper turns it into a byte-sequence value, not a string value — so
"UTF-8-valid bytes decode to string values" is false of the code, whose
decision predicate is `HeaderValue::to_str`, i.e. visible ASCII. -/
theorem utf8_string_claim_counterexample :
    utf8_valid [0xC3, 0xA9] = true
  ∧ (to_cel_value [0xC3, 0xA9]).isString = false
  ∧ to_cel_value [0xC3, 0xA9] = Value.bytes [0xC3, 0xA9] :=
  ⟨by decide, by decide, rfl⟩

/-- C4, amended: the header mapper decides string-versus-bytes per value
using `HeaderValue::to_str`'s criterion: a raw value all of whose bytes
are visible ASCII (`0x20`–`0x7E`) or tab maps to a string value, and any
other raw value — including valid UTF-8 with non-ASCII bytes — maps to a
byte-sequence value; a value whose bytes are not valid UTF-8 still always
maps to a byte-sequence value. The decision is made independently of the
other values under the same header name: in a multi-valued header each
element of the resulting list is `to_cel_value` of that raw value alone,
and a singleton collapses to `to_cel_value` of its one raw value. -/
theorem header_value_ascii_decision (hv : HeaderBytes) (hvs : List HeaderBytes) :
    (hv.all is_visible_ascii = true → to_cel_value hv = Value.str (asciiToString hv))
  ∧ (hv.all is_visible_ascii = false → to_cel_value hv = Value.bytes hv)
  ∧ (utf8_valid hv = false → to_cel_value hv = Value.bytes hv)
  ∧ (1 < hvs.length → header_values_to_value hvs = Value.list (hvs.map to_cel_value))
  ∧ (∀ v, hvs = [v] → header_values_to_value hvs = to_cel_value v) := by
  refine ⟨fun h => by simp [to_cel_value, h],
          fun h => by simp [to_cel_value, h],
          fun h => ?_, fun h => ?_, fun v h => by simp [h, header_values_to_value]⟩
  · rcases ha : hv.all is_visible_ascii with _ | _
    · simp [to_cel_value, ha]
    · exact absurd (utf8_valid_of_all_visible_ascii hv ha) (by simp [h])
  · match hvs, h with
    | v1 :: v2 :: rest, _ => simp [header_values_to_value]

/-- Witness for `header_value_ascii_decision`: ASCII `"hi"` becomes a
string; the lone byte `0xC8` (not visible ASCII, and not valid UTF-8
since it lacks a continuation byte) becomes bytes both ways; a two-valued
header becomes the pointwise-mapped list; a singleton collapses. -/
theorem header_value_ascii_decision_witness :
    to_cel_value [104, 105] = Value.str (asciiToString [104, 105])
  ∧ to_cel_value [0xC8] = Value.bytes [0xC8]
  ∧ header_values_to_value [[97], [98]] = Value.list ([[97], [98]].map to_cel_value)
  ∧ header_values_to_value [[97]] = to_cel_value [97] :=
  ⟨(header_value_ascii_decision [104, 105] []).1 (by decide),
   (header_value_ascii_decision [0xC8] []).2.2.1 (by decide),
   (header_value_ascii_decision [0] [[97], [98]]).2.2.2.1 (by decide),
   (header_value_ascii_decision [0] [[97]]).2.2.2.2 [97] rfl⟩

/-! ### Lemmas about `buildHeaderMap` -/

/-- Appending a value for `n` appends it to `n`'s entry (or starts one). -/
theorem lookupA_hmAppend_self (m : HeaderEntries) (n : String) (v : HeaderBytes) :
    lookupA (hmAppend m n v) n = some ((lookupA m n).getD [] ++ [v]) := by
  induction m with
  | nil => simp [hmAppend, lookupA]
  | cons hd tl ih =>
    obtain ⟨k, vs⟩ := hd
    by_cases h : k = n
    · subst h
      simp [hmAppend, lookupA]
    · simp [hmAppend, h, lookupA, ih]

/-- Appending a value for `n` leaves other names' entries unchanged. -/
theorem lookupA_hmAppend_ne (m : HeaderEntries) (n n' : String) (v : HeaderBytes)
    (h : n' ≠ n) : lookupA (hmAppend m n v) n' = lookupA m n' := by
  induction m with
  | nil => simp [hmAppend, lookupA, Ne.symm h]
  | cons hd tl ih =>
    obtain ⟨k, vs⟩ := hd
    by_cases hk : k = n
    · subst hk
      simp [hmAppend, lookupA, Ne.symm h]
    · simp [hmAppend, hk, lookupA, ih]

/-- `valuesOf` on a cons. -/
theorem valuesOf_cons (k : String) (v : HeaderBytes)
    (seq : List (String × HeaderBytes)) (n : String) :
    valuesOf ((k, v) :: seq) n =
      if k = n then v :: valuesOf seq n else valuesOf seq n := by
  by_cases h : k = n <;> simp [valuesOf, h]

/-- Folding `hmAppend` over a raw sequence accumulates, per name, exactly
that name's values in arrival order on top of whatever the initial map
already held. -/
theorem foldl_hmAppend_lookup (seq : List (String × HeaderBytes))
    (m : HeaderEntries) (n : String) :
    lookupA (seq.foldl (fun m p => hmAppend m p.1 p.2) m) n =
      if valuesOf seq n = [] then lookupA m n
      else some ((lookupA m n).getD [] ++ valuesOf seq n) := by
  induction seq generalizing m with
  | nil => simp [valuesOf]
  | cons hd tl ih =>
    obtain ⟨k, v⟩ := hd
    rw [List.foldl_cons, ih, valuesOf_cons]
    by_cases h : k = n
    · subst h
      rcases htl : valuesOf tl k with _ | ⟨w, ws⟩
      · simp [lookupA_hmAppend_self]
      · simp [lookupA_hmAppend_self]
    · simp [h, lookupA_hmAppend_ne m k n v fun hh => h hh.symm]

/-- Lookup in the built header map: `none` for absent names, all values in
arrival order for present ones. -/
theorem buildHeaderMap_lookup (seq : List (String × HeaderBytes)) (n : String) :
    lookupA (buildHeaderMap seq) n =
      if valuesOf seq n = [] then none else some (valuesOf seq n) := by
  rw [buildHeaderMap, foldl_hmAppend_lookup]
  rcases h : valuesOf seq n with _ | ⟨w, ws⟩ <;> simp [lookupA]

/-- `hmAppend` keeps every entry's value list nonempty. -/
theorem hmAppend_entries_ne (m : HeaderEntries) (n : String) (v : HeaderBytes)
    (h : ∀ e ∈ m, e.2 ≠ []) : ∀ e ∈ hmAppend m n v, e.2 ≠ [] := by
  induction m with
  | nil =>
    intro e he
    simp [hmAppend] at he
    simp [he]
  | cons hd tl ih =>
    obtain ⟨k, vs⟩ := hd
    intro e he
    by_cases hk : k = n
    · subst hk
      simp [hmAppend] at he
      rcases he with he | he
      · simp [he]
      · exact h e (List.mem_cons_of_mem _ he)
    · simp [hmAppend, hk] at he
      rcases he with he | he
      · subst he
        exact h (k, vs) (List.mem_cons_self _ _)
      · exact ih (fun e' he' => h e' (List.mem_cons_of_mem _ he')) e he

/-- Every entry of the built header map has a nonempty value list. -/
theorem buildHeaderMap_entries_ne (seq : List (String × HeaderBytes)) :
    ∀ e ∈ buildHeaderMap seq, e.2 ≠ [] := by
  have general : ∀ (s : List (String × HeaderBytes)) (m : HeaderEntries),
      (∀ e ∈ m, e.2 ≠ []) →
      ∀ e ∈ s.foldl (fun m p => hmAppend m p.1 p.2) m, e.2 ≠ [] := by
    intro s
    induction s with
    | nil => intro m hm; simpa using hm
    | cons hd tl ih =>
      intro m hm
      rw [List.foldl_cons]
      exact ih _ (hmAppend_entries_ne m hd.1 hd.2 hm)
  exact general seq [] (by simp)

/-- Membership in the keys of `hmAppend`. -/
theorem mem_keys_hmAppend (m : HeaderEntries) (n : String) (v : HeaderBytes)
    (x : String) :
    x ∈ (hmAppend m n v).map Prod.fst ↔ x ∈ m.map Prod.fst ∨ x = n := by
  induction m with
  | nil => simp [hmAppend]
  | cons hd tl ih =>
    obtain ⟨k, vs⟩ := hd
    by_cases hk : k = n
    · subst hk
      simp [hmAppend]
      tauto
    · simp [hmAppend, hk, ih]
      tauto

/-- `hmAppend` preserves distinctness of the entry names. -/
theorem hmAppend_keys_nodup (m : HeaderEntries) (n : String) (v : HeaderBytes)
    (h : (m.map Prod.fst).Nodup) : ((hmAppend m n v).map Prod.fst).Nodup := by
  induction m with
  | nil => simp [hmAppend]
  | cons hd tl ih =>
    obtain ⟨k, vs⟩ := hd
    rw [List.map_cons, List.nodup_cons] at h
    obtain ⟨hkmem, htl⟩ := h
    by_cases hk : k = n
    · subst hk
      have heq : hmAppend ((k, vs) :: tl) k v = (k, vs ++ [v]) :: tl := by
        simp [hmAppend]
      rw [heq, List.map_cons, List.nodup_cons]
      exact ⟨hkmem, htl⟩
    · have heq : hmAppend ((k, vs) :: tl) n v = (k, vs) :: hmAppend tl n v := by
        simp [hmAppend, hk]
      rw [heq, List.map_cons, List.nodup_cons]
      refine ⟨fun hmem => ?_, ih htl⟩
      rcases (mem_keys_hmAppend tl n v k).mp hmem with hmem | hmem
      · exact hkmem hmem
      · exact hk hmem

/-- The built header map has one entry per distinct name. -/
theorem buildHeaderMap_keys_nodup (seq : List (String × HeaderBytes)) :
    ((buildHeaderMap seq).map Prod.fst).Nodup := by
  have general : ∀ (s : List (String × HeaderBytes)) (m : HeaderEntries),
      (m.map Prod.fst).Nodup →
      ((s.foldl (fun m p => hmAppend m p.1 p.2) m).map Prod.fst).Nodup := by
    intro s
    induction s with
    | nil => intro m hm; simpa using hm
    | cons hd tl ih =>
      intro m hm
      rw [List.foldl_cons]
      exact ih _ (hmAppend_keys_nodup m hd.1 hd.2 hm)
  exact general seq [] (by simp)

/-! ### The streaming fold of `parse_headers` processes one entry at a time -/

/-- `parse_headers` generalized over the fold's starting state. -/
def parseRun (st : ParseState) (l : List (Option String × HeaderBytes)) :
    List (String × Value) :=
  let st' := l.foldl parseStep st
  match st'.1 with
  | some (hn, hvs) => insertA st'.2 hn (header_values_to_value hvs)
  | none => st'.2

/-- `parse_headers` is `parseRun` from the empty state. -/
theorem parse_headers_eq_parseRun (m : HeaderEntries) :
    parse_headers m = parseRun (none, []) (hmIter m) := rfl

/-- `parseRun` steps by `parseStep`. -/
theorem parseRun_cons (st : ParseState) (x : Option String × HeaderBytes)
    (l : List (Option String × HeaderBytes)) :
    parseRun st (x :: l) = parseRun (parseStep st x) l := rfl

/-- `hmIter` on a cons. -/
theorem hmIter_cons (e : String × List HeaderBytes) (rest : HeaderEntries) :
    hmIter (e :: rest) =
      (match e.2 with
        | [] => []
        | v :: vs => (some e.1, v) :: vs.map (fun w => (none, w))) ++ hmIter rest := by
  simp [hmIter]

/-- A run of `(none, w)` pairs extends the pending group in order. -/
theorem parseRun_extend (hn : String) (acc : List HeaderBytes)
    (out : List (String × Value)) (vs : List HeaderBytes)
    (l : List (Option String × HeaderBytes)) :
    parseRun (some (hn, acc), out) ((vs.map fun w => (none, w)) ++ l) =
      parseRun (some (hn, acc ++ vs), out) l := by
  induction vs generalizing acc with
  | nil => simp
  | cons w ws ih =>
    rw [List.map_cons, List.cons_append, parseRun_cons]
    show parseRun (some (hn, acc ++ [w]), out) ((ws.map fun w => (none, w)) ++ l) = _
    rw [ih]
    simp

/-- Flushing the pending group before or while consuming the remaining
entries gives the same output (each remaining entry being nonempty, its
iteration starts with a `some` name that flushes the pending group
anyway). -/
theorem parseRun_flush (g : String × List HeaderBytes) (out : List (String × Value))
    (m : HeaderEntries) (h : ∀ e ∈ m, e.2 ≠ []) :
    parseRun (some g, out) (hmIter m) =
      parseRun (none, insertA out g.1 (header_values_to_value g.2)) (hmIter m) := by
  cases m with
  | nil => rfl
  | cons e rest =>
    obtain ⟨n, vs⟩ := e
    rcases vs with _ | ⟨v, ws⟩
    · exact absurd rfl (h (n, []) (List.mem_cons_self _ _))
    · rw [hmIter_cons]
      show parseRun (some g, out)
          (((some n, v) :: ws.map fun w => (none, w)) ++ hmIter rest) = _
      rw [List.cons_append, parseRun_cons]
      rfl

/-- The streaming fold over the flattened iteration equals the per-entry
fold: each entry is grouped back together and inserted once. -/
theorem parseRun_entries (m : HeaderEntries) (out : List (String × Value))
    (h : ∀ e ∈ m, e.2 ≠ []) :
    parseRun (none, out) (hmIter m) =
      m.foldl (fun o e => insertA o e.1 (header_values_to_value e.2)) out := by
  induction m generalizing out with
  | nil => rfl
  | cons e rest ih =>
    obtain ⟨n, vs⟩ := e
    rcases vs with _ | ⟨v, ws⟩
    · exact absurd rfl (h (n, []) (List.mem_cons_self _ _))
    · rw [hmIter_cons]
      show parseRun (none, out)
          (((some n, v) :: ws.map fun w => (none, w)) ++ hmIter rest) = _
      rw [List.cons_append, parseRun_cons]
      show parseRun (some (n, [v]), out) ((ws.map fun w => (none, w)) ++ hmIter rest) = _
      rw [parseRun_extend,
        parseRun_flush (n, [v] ++ ws) out rest
          (fun e he => h e (List.mem_cons_of_mem _ he)),
        ih _ (fun e he => h e (List.mem_cons_of_mem _ he)), List.foldl_cons]
      rfl

/-! ### From the per-entry fold to the output mapping -/

/-- Inserting a not-yet-present key appends the binding. -/
theorem insertA_of_lookupA_none {β : Type} (l : List (String × β)) (k : String)
    (v : β) (h : lookupA l k = none) : insertA l k v = l ++ [(k, v)] := by
  induction l with
  | nil => rfl
  | cons hd tl ih =>
    obtain ⟨k', w⟩ := hd
    by_cases hk : k' = k
    · simp [lookupA, hk] at h
    · have h' : lookupA tl k = none := by simpa [lookupA, hk] using h
      simp [insertA, hk, ih h']

/-- Lookup distributes over append, preferring the left list. -/
theorem lookupA_append {β : Type} (l1 l2 : List (String × β)) (k : String) :
    lookupA (l1 ++ l2) k =
      match lookupA l1 k with
      | some v => some v
      | none => lookupA l2 k := by
  induction l1 with
  | nil => rfl
  | cons hd tl ih =>
    obtain ⟨k', w⟩ := hd
    by_cases hk : k' = k <;> simp [lookupA, hk, ih]

/-- With distinct entry names, the per-entry insert fold appends the
mapped entries. -/
theorem entries_foldl_map (m : HeaderEntries) (out : List (String × Value))
    (hnodup : (m.map Prod.fst).Nodup)
    (hdisj : ∀ k ∈ m.map Prod.fst, lookupA out k = none) :
    m.foldl (fun o e => insertA o e.1 (header_values_to_value e.2)) out =
      out ++ m.map (fun e => (e.1, header_values_to_value e.2)) := by
  induction m generalizing out with
  | nil => simp
  | cons e rest ih =>
    obtain ⟨n, vs⟩ := e
    rw [List.map_cons, List.nodup_cons] at hnodup
    obtain ⟨hnmem, hrest⟩ := hnodup
    have hfresh : lookupA out n = none := hdisj n (by simp)
    have hdisj' : ∀ k ∈ rest.map Prod.fst,
        lookupA (out ++ [(n, header_values_to_value vs)]) k = none := by
      intro k hk
      have hne : ¬n = k := fun hh => hnmem (hh ▸ hk)
      rw [lookupA_append, hdisj k (List.mem_cons_of_mem _ hk)]
      simp [lookupA, hne]
    rw [List.foldl_cons, insertA_of_lookupA_none out n _ hfresh, ih _ hrest hdisj']
    simp

/-- Bridge: on a well-formed header map (nonempty entries, distinct
names — both guaranteed by `buildHeaderMap`), `parse_headers` is exactly
the per-entry image under `header_values_to_value`. -/
theorem parse_headers_entries (m : HeaderEntries) (hne : ∀ e ∈ m, e.2 ≠ [])
    (hnodup : (m.map Prod.fst).Nodup) :
    parse_headers m = m.map fun e => (e.1, header_values_to_value e.2) := by
  rw [parse_headers_eq_parseRun, parseRun_entries m [] hne,
    entries_foldl_map m [] hnodup (fun k _ => rfl)]
  simp

/-- Lookup through the per-entry image. -/
theorem lookupA_map_entries (m : HeaderEntries) (n : String) :
    lookupA (m.map fun e => (e.1, header_values_to_value e.2)) n =
      (lookupA m n).map header_values_to_value := by
  induction m with
  | nil => rfl
  | cons e rest ih =>
    obtain ⟨k, vs⟩ := e
    by_cases hk : k = n <;> simp [lookupA, hk, ih]

/-- A name not among the entry names matches no entry. -/
theorem filter_keys_nil (m : HeaderEntries) (n : String)
    (h : n ∉ m.map Prod.fst) : m.filter (fun e => e.1 == n) = [] := by
  induction m with
  | nil => rfl
  | cons e rest ih =>
    obtain ⟨k, vs⟩ := e
    simp only [List.map_cons, List.mem_cons] at h
    push_neg at h
    obtain ⟨h1, h2⟩ := h
    simp [List.filter_cons, Ne.symm h1, ih h2]

/-- With distinct entry names, the entries matching a present name form
exactly the singleton carrying that name's value list. -/
theorem filter_eq_single (m : HeaderEntries) (n : String) (vs : List HeaderBytes)
    (hnodup : (m.map Prod.fst).Nodup) (h : lookupA m n = some vs) :
    m.filter (fun e => e.1 == n) = [(n, vs)] := by
  induction m with
  | nil => simp [lookupA] at h
  | cons e rest ih =>
    obtain ⟨k, ws⟩ := e
    rw [List.map_cons, List.nodup_cons] at hnodup
    obtain ⟨hkmem, hrest⟩ := hnodup
    by_cases hk : k = n
    · subst hk
      simp only [lookupA, if_true, eq_self_iff_true, Option.some.injEq] at h
      subst h
      simp [List.filter_cons, filter_keys_nil rest k hkmem]
    · have h' : lookupA rest n = some vs := by simpa [lookupA, hk] using h
      simp [List.filter_cons, hk, ih hrest h']

/-- `to_cel_value` is a string or a bytes value, never a list. -/
theorem to_cel_value_not_list (v : HeaderBytes) : (to_cel_value v).isList = false := by
  unfold to_cel_value
  split <;> rfl

/-- `header_values_to_value` on two or more values is the pointwise list. -/
theorem header_values_to_value_of_one_lt (vs : List HeaderBytes)
    (h : 1 < vs.length) :
    header_values_to_value vs = Value.list (vs.map to_cel_value) := by
  rcases vs with _ | ⟨v1, _ | ⟨v2, rest⟩⟩
  · simp at h
  · simp at h
  · rfl

/-- C5: for every ordered raw sequence of (name, raw-bytes) pairs, a name
occurring anywhere in it — contiguously or scattered — yields exactly one
entry in the output mapping, and that entry carries all of the name's
values in arrival order (none lost). -/
theorem parse_headers_merges_scattered (seq : List (String × HeaderBytes))
    (n : String) (h : valuesOf seq n ≠ []) :
    ((parse_headers (buildHeaderMap seq)).filter fun e => e.1 == n).map Prod.snd
      = [header_values_to_value (valuesOf seq n)] := by
  have hne := buildHeaderMap_entries_ne seq
  have hnodup := buildHeaderMap_keys_nodup seq
  rw [parse_headers_entries _ hne hnodup]
  have hlk : lookupA (buildHeaderMap seq) n = some (valuesOf seq n) := by
    rw [buildHeaderMap_lookup]
    simp [h]
  rw [List.filter_map]
  have hcomp : ((fun e : String × Value => e.1 == n) ∘
      fun e : String × List HeaderBytes => (e.1, header_values_to_value e.2)) =
      fun e : String × List HeaderBytes => e.1 == n := rfl
  rw [hcomp, filter_eq_single (buildHeaderMap seq) n (valuesOf seq n) hnodup hlk]
  simp

/-- Witness for `parse_headers_merges_scattered`: the name `"a"` occurs
non-contiguously (around a `"x"` field) and both of its values appear, in
arrival order, in the single `"a"` entry. -/
theorem parse_headers_merges_scattered_witness :
    ((parse_headers (buildHeaderMap [("a", [98]), ("x", [120]), ("a", [99])])).filter
        fun e => e.1 == "a").map Prod.snd
      = [header_values_to_value (valuesOf [("a", [98]), ("x", [120]), ("a", [99])] "a")] :=
  parse_headers_merges_scattered [("a", [98]), ("x", [120]), ("a", [99])] "a"
    (by decide)

/-- C6: a name with exactly one value maps to the scalar `to_cel_value`
of that value (which is never a list, in particular never a one-element
list), and a name with `N > 1` values maps to the list of exactly the `N`
pointwise-converted values in arrival order. -/
theorem parse_headers_scalar_or_list (seq : List (String × HeaderBytes))
    (n : String) :
    (∀ v, valuesOf seq n = [v] →
        lookupA (parse_headers (buildHeaderMap seq)) n = some (to_cel_value v)
      ∧ (to_cel_value v).isList = false)
  ∧ (∀ vs, valuesOf seq n = vs → 1 < vs.length →
        lookupA (parse_headers (buildHeaderMap seq)) n
          = some (Value.list (vs.map to_cel_value))
      ∧ (vs.map to_cel_value).length = vs.length) := by
  have hne := buildHeaderMap_entries_ne seq
  have hnodup := buildHeaderMap_keys_nodup seq
  have hmain : lookupA (parse_headers (buildHeaderMap seq)) n =
      (lookupA (buildHeaderMap seq) n).map header_values_to_value := by
    rw [parse_headers_entries _ hne hnodup, lookupA_map_entries]
  constructor
  · intro v hv
    have hlk : lookupA (buildHeaderMap seq) n = some [v] := by
      rw [buildHeaderMap_lookup, hv]
      simp
    refine ⟨?_, to_cel_value_not_list v⟩
    rw [hmain, hlk]
    rfl
  · intro vs hv hlen
    have hvsne : vs ≠ [] := by
      intro hh
      rw [hh] at hlen
      simp at hlen
    have hlk : lookupA (buildHeaderMap seq) n = some vs := by
      rw [buildHeaderMap_lookup, hv]
      simp [hvsne]
    refine ⟨?_, by simp⟩
    rw [hmain, hlk]
    simp [header_values_to_value_of_one_lt vs hlen]

/-- Witness for `parse_headers_scalar_or_list`: a once-occurring name
collapses to the scalar, a twice-occurring name yields the two-element
list. -/
theorem parse_headers_scalar_or_list_witness :
    (lookupA (parse_headers (buildHeaderMap [("a", [98])])) "a"
        = some (to_cel_value [98])
      ∧ (to_cel_value [98]).isList = false)
  ∧ (lookupA (parse_headers (buildHeaderMap [("a", [98]), ("x", [120]), ("a", [99])])) "a"
        = some (Value.list ([[98], [99]].map to_cel_value))
      ∧ (([[98], [99]] : List HeaderBytes).map to_cel_value).length
          = ([[98], [99]] : List HeaderBytes).length) :=
  ⟨(parse_headers_scalar_or_list [("a", [98])] "a").1 [98] (by decide),
   (parse_headers_scalar_or_list [("a", [98]), ("x", [120]), ("a", [99])] "a").2
     [[98], [99]] (by decide) (by decide)⟩

end Cellulose
